import Mathlib

/-!
Verification of the FASTQ statistics core (`src/fastq_reader.py`).

The embedding models Python strings as `List Char` (one element per code
point), the Python `dict` as an association list with unique keys whose
insertion order is preserved (an update of an existing key keeps its
position), and the reader object after `read()` as the record `ReaderState`.
Numeric statistics (percentiles, percentages, histogram bins) are embedded
over `ℚ`, i.e. with exact arithmetic in place of IEEE doubles.
-/

/-- A Python string: one `Char` per code point. -/
abbrev Line := List Char

/-- Python `str.strip()`: drop leading and trailing whitespace. -/
def pstrip (s : Line) : Line :=
  ((s.dropWhile Char.isWhitespace).reverse.dropWhile Char.isWhitespace).reverse

/-- Python `dict` assignment `d[k] = v` on an association list with unique
keys: an existing key keeps its position and gets the new value, a new key is
appended at the end (insertion order). -/
def dictInsert {α : Type} (k : Line) (v : α) : List (Line × α) → List (Line × α)
  | [] => [(k, v)]
  | (k', v') :: rest => if k' = k then (k, v) :: rest else (k', v') :: dictInsert k v rest

/-- The keys of an association list, in order. -/
def dictKeys {α : Type} (d : List (Line × α)) : List Line := d.map Prod.fst

/-- The fields that `FastqReader.read` (src/fastq_reader.py:43-46) initializes
and fills: `total_sequences`, `total_length`, `seq_dict`, `seq_quality_dict`. -/
structure ReaderState where
  total_sequences : Nat
  total_length : Nat
  seq_dict : List (Line × Line)
  seq_quality_dict : List (Line × Line)
deriving DecidableEq, Repr

/-- Modelled from the spec: `SequenceReader.validate_sequence` is defined in
`classes/sequence_reader.py`, which is not among the provided sources.  Per
the spec (§4.1), the default validator accepts a sequence iff it is non-empty
and every symbol is a recognized nucleotide letter; per the spec scenario in
§8, lowercase and non-ACGT/N symbols are rejected, so the recognized set is
`{A, C, G, T, N}`. -/
def validate_sequence (s : Line) : Bool :=
  !s.isEmpty && s.all fun c => c = 'A' || c = 'C' || c = 'G' || c = 'T' || c = 'N'

/-- The body of the `if self.validate_sequence(sequence):` block of
`FastqReader.read` (src/fastq_reader.py:58-63), for one 4-line group. -/
def readStep (validate : Line → Bool) (header sequence quality : Line)
    (st : ReaderState) : ReaderState :=
  if validate sequence then
    let seq_id := header.drop 1
    { total_sequences := st.total_sequences + 1
      total_length := st.total_length + sequence.length
      seq_dict := dictInsert seq_id sequence st.seq_dict
      seq_quality_dict := dictInsert seq_id quality st.seq_quality_dict }
  else st

/-- The `while True:` loop of `FastqReader.read` (src/fastq_reader.py:49-63).
The input is the list of the remaining lines of the file; `readline()` past
the end of the file yields the empty string, so an exhausted input behaves
exactly like a blank header line and stops the loop.  Each iteration consumes
the header plus the next three lines (sequence, separator, quality); a line
that is missing at the end of the file reads as `""`.  The separator line is
read and discarded, as in the source. -/
def readLoop (validate : Line → Bool) : List Line → ReaderState → ReaderState
  | [], st => st
  | h :: t, st =>
    let header := pstrip h
    if header = [] then st
    else
      -- The three `readline()` calls after the header: a line missing at the
      -- end of the file reads as `""`.  When fewer than three lines follow,
      -- the next header read also yields `""`, so the loop stops right after
      -- this iteration; those unrolled cases return the stepped state.
      match t with
      | [] => readStep validate header (pstrip []) (pstrip []) st
      | [s] => readStep validate header (pstrip s) (pstrip []) st
      | [s, _sep] => readStep validate header (pstrip s) (pstrip []) st
      | s :: _sep :: q :: rest =>
        readLoop validate rest (readStep validate header (pstrip s) (pstrip q) st)

/-- `FastqReader.read` (src/fastq_reader.py:43-63): reset the four fields,
then run the parse loop over the lines of the file. -/
def read (validate : Line → Bool) (lines : List Line) : ReaderState :=
  readLoop validate lines
    { total_sequences := 0, total_length := 0, seq_dict := [], seq_quality_dict := [] }

/-- `FastqReader.count_sequences` (src/fastq_reader.py:98-105). -/
def count_sequences (st : ReaderState) : Nat := st.seq_dict.length

/-- The list of valid `(id, sequence, quality)` groups the parse loop accepts,
in input order: the re-expression of `readLoop` used to reason about the
store.  `readLoop_eq_foldl` proves the two agree. -/
def parseGroups (validate : Line → Bool) : List Line → List (Line × Line × Line)
  | [] => []
  | h :: t =>
    let header := pstrip h
    if header = [] then []
    else
      match t with
      | [] =>
        if validate (pstrip []) then [(header.drop 1, pstrip [], pstrip [])] else []
      | [s] =>
        if validate (pstrip s) then [(header.drop 1, pstrip s, pstrip [])] else []
      | [s, _sep] =>
        if validate (pstrip s) then [(header.drop 1, pstrip s, pstrip [])] else []
      | s :: _sep :: q :: rest =>
        if validate (pstrip s) then
          (header.drop 1, pstrip s, pstrip q) :: parseGroups validate rest
        else parseGroups validate rest

/-- Folding one accepted group into the state, as `readStep` does on the
valid branch. -/
def stepFold (st : ReaderState) (r : Line × Line × Line) : ReaderState :=
  { total_sequences := st.total_sequences + 1
    total_length := st.total_length + r.2.1.length
    seq_dict := dictInsert r.1 r.2.1 st.seq_dict
    seq_quality_dict := dictInsert r.1 r.2.2 st.seq_quality_dict }

/-- Python dict lookup `d[k]`, `none` modelling `KeyError`. -/
def dictGet {α : Type} (k : Line) : List (Line × α) → Option α
  | [] => none
  | (k', v) :: rest => if k' = k then some v else dictGet k rest

/-- Python `char.encode(encoding="ascii")` for a one-character string: the
single byte when the code point is below 128, failure (`UnicodeEncodeError`)
otherwise. -/
def asciiEncode (c : Char) : Option Nat :=
  if c.toNat < 128 then some c.toNat else none

/-- The comprehension of `FastqReader.get_quality_scores`
(src/fastq_reader.py:136) applied to one quality string:
`[ord(char.encode(encoding="ascii")) - 33 for char in quality]`.
`none` models the `UnicodeEncodeError` escaping from `char.encode`. -/
def decodeQuality (qual : Line) : Option (List Int) :=
  qual.mapM fun c => (asciiEncode c).map fun n => (n : Int) - 33

/-- `FastqReader.get_quality_scores` (src/fastq_reader.py:123-136): look the
id up in `seq_quality_dict` and decode. -/
def get_quality_scores (st : ReaderState) (seq_id : Line) : Option (List Int) :=
  match dictGet seq_id st.seq_quality_dict with
  | none => none
  | some q => decodeQuality q

/-- Python `max` over a list of naturals (the `max(len(...) for ...)` calls at
src/fastq_reader.py:183 and 272 are both guarded by non-emptiness, where this
fold agrees with Python `max`). -/
def natsMax (ns : List Nat) : Nat := ns.foldr Nat.max 0

/-- Python `min` over a non-empty list of naturals (`np.histogram` uses the
data minimum as the first bin edge). -/
def natsMin : List Nat → Nat
  | [] => 0
  | h :: t => t.foldl Nat.min h

/-- `max_len = max(len(qual) for qual in qualities)`
(src/fastq_reader.py:183; same shape at 272 for sequences). -/
def maxLen (xs : List Line) : Nat := natsMax (xs.map List.length)

/-- The inner collection loop of src/fastq_reader.py:188-191: the decoded
quality value `ord(qual_str[pos]) - 33` from each sampled quality string that
has a character at `pos`, in sample order; shorter strings contribute
nothing. -/
def posQualities (qualities : List Line) (pos : Nat) : List Int :=
  qualities.filterMap fun q => q[pos]?.map fun c => ((c.toNat : Int) - 33)

/-- Linear interpolation between the order statistics of `s` at a fractional
rank: `s[⌊rank⌋] + (rank - ⌊rank⌋) * (s[⌊rank⌋+1] - s[⌊rank⌋])`, the
interpolation formula of `np.percentile` (default method). -/
def interpAt (s : List Int) (rank : ℚ) : ℚ :=
  let i : Nat := (Int.floor rank).toNat
  let lo : ℚ := ((s.getD i 0 : ℤ) : ℚ)
  let hi : ℚ := ((s.getD (i + 1) (s.getD i 0) : ℤ) : ℚ)
  lo + (rank - (i : ℚ)) * (hi - lo)

/-- `np.percentile(values, q)` with the default linear-interpolation
semantics, over exact rationals: sort ascending and interpolate at rank
`q/100 * (n-1)`.  `np.median(values)` equals `percentileQ values 50`. -/
def percentileQ (values : List Int) (q : ℚ) : ℚ :=
  let s := values.insertionSort (· ≤ ·)
  interpAt s (q / 100 * ((s.length : ℚ) - 1))

/-- One row of the `quality_stats` list built at src/fastq_reader.py:193-201
(the engine's `PositionQualitySummary`). -/
structure QualityRow where
  position : Nat
  median : ℚ
  q25 : ℚ
  q75 : ℚ
  q10 : ℚ
  q90 : ℚ
deriving DecidableEq, Repr

/-- The statistics computation of `per_base_sequence_quality`
(src/fastq_reader.py:183-201), after sampling: for each 0-based position
below `max_len` with at least one collected value, emit the 1-based position
and the five percentiles of the collected values; positions with no value
are omitted. -/
def quality_stats (qualities : List Line) : List QualityRow :=
  (List.range (maxLen qualities)).filterMap fun pos =>
    let pq := posQualities qualities pos
    if pq.isEmpty then none
    else some { position := pos + 1, median := percentileQ pq 50,
                q25 := percentileQ pq 25, q75 := percentileQ pq 75,
                q10 := percentileQ pq 10, q90 := percentileQ pq 90 }

/-- The sampling step shared by the two per-position views
(src/fastq_reader.py:179-181 and 268-270): when more than `sample_size`
records are present, `random.sample(xs, sample_size)` replaces them; the
random draw itself is abstracted as the `sampler` parameter, whose contract
(`sample_size` elements drawn without replacement) is a hypothesis of the
theorems that use it. -/
def sampleRecords {α : Type} (sampler : List α → Nat → List α) (sample_size : Nat)
    (xs : List α) : List α :=
  if xs.length > sample_size then sampler xs sample_size else xs

/-- The spec's `StateError`: statistics requested on an empty store (the
source raises `ValueError("... not loaded. Call read() first.")`). -/
inductive EngineError : Type
  | stateError
deriving DecidableEq, Repr

/-- `FastqReader.per_base_sequence_quality` (src/fastq_reader.py:160-246),
reduced to its data contract: guard against an empty store, sample, and
compute the per-position percentile rows (the plotting that consumes them is
presentation, out of the data contract). -/
def per_base_sequence_quality (sampler : List Line → Nat → List Line)
    (st : ReaderState) (sample_size : Nat := 5000) :
    Except EngineError (List QualityRow) :=
  if st.seq_quality_dict.isEmpty then .error .stateError
  else .ok (quality_stats
    (sampleRecords sampler sample_size (st.seq_quality_dict.map Prod.snd)))

/-- One row of `content_data` built at src/fastq_reader.py:285-291 (the
engine's `PositionContentSummary`). -/
structure ContentRow where
  position : Nat
  percentA : ℚ
  percentT : ℚ
  percentC : ℚ
  percentG : ℚ
deriving DecidableEq, Repr

/-- The characters that the sampled sequences have at position `pos` (the
counting loop at src/fastq_reader.py:278-282 visits exactly the positions
`pos < len(sequence)`; its `pos < max_len` guard never fails because
`max_len` is the maximum length). -/
def charsAt (seqs : List Line) (pos : Nat) : List Char :=
  seqs.filterMap fun s => s[pos]?

/-- `nucleotide in base_counts`, i.e. membership in the four canonical
symbols `'ATCG'` (src/fastq_reader.py:275,280). -/
def recognizedBase (c : Char) : Bool := c = 'A' || c = 'T' || c = 'C' || c = 'G'

/-- `base_counts[b][pos]` after the counting loop
(src/fastq_reader.py:275-282). -/
def base_count (seqs : List Line) (b : Char) (pos : Nat) : Nat :=
  ((charsAt seqs pos).filter fun c => c = b).length

/-- `total_counts[pos]` after the counting loop (src/fastq_reader.py:276-282):
incremented only when the symbol is recognized, so unrecognized symbols are
excluded from the normalization total. -/
def total_count (seqs : List Line) (pos : Nat) : Nat :=
  ((charsAt seqs pos).filter recognizedBase).length

/-- The `content_data` rows of `per_base_sequence_content`
(src/fastq_reader.py:284-291): for each position with a positive recognized
total, the 1-based position and the four percentages
`base_counts[base][pos] / total_counts[pos] * 100`. -/
def contentRows (seqs : List Line) : List ContentRow :=
  (List.range (maxLen seqs)).filterMap fun pos =>
    let tot := total_count seqs pos
    if tot > 0 then
      some { position := pos + 1,
             percentA := (base_count seqs 'A' pos : ℚ) / (tot : ℚ) * 100,
             percentT := (base_count seqs 'T' pos : ℚ) / (tot : ℚ) * 100,
             percentC := (base_count seqs 'C' pos : ℚ) / (tot : ℚ) * 100,
             percentG := (base_count seqs 'G' pos : ℚ) / (tot : ℚ) * 100 }
    else none

/-- `FastqReader.per_base_sequence_content` (src/fastq_reader.py:249-335),
reduced to its data contract: guard, sample, compute the content rows. -/
def per_base_sequence_content (sampler : List Line → Nat → List Line)
    (st : ReaderState) (sample_size : Nat := 5000) :
    Except EngineError (List ContentRow) :=
  if st.seq_dict.isEmpty then .error .stateError
  else .ok (contentRows (sampleRecords sampler sample_size (st.seq_dict.map Prod.snd)))

/-- The bin a data point falls into, for `np.histogram` with equal-width bins
on the range `[first, first + bins*width]`: the half-open bins
`[first + j*width, first + (j+1)*width)` with the rightmost bin closed, which
for `width > 0` is `min ⌊(x - first)/width⌋ (bins - 1)`. -/
def binIndex (first width : ℚ) (bins : Nat) (x : ℚ) : Nat :=
  min (Int.floor ((x - first) / width)).toNat (bins - 1)

/-- The first bin edge of `np.histogram`: the data minimum, widened by 0.5
when all data are equal (numpy's degenerate-range rule). -/
def histFirst (data : List Nat) : ℚ :=
  if ((natsMin data : Nat) : ℚ) = ((natsMax data : Nat) : ℚ)
  then ((natsMin data : Nat) : ℚ) - 1/2 else ((natsMin data : Nat) : ℚ)

/-- The last bin edge of `np.histogram`: the data maximum, widened by 0.5
when all data are equal. -/
def histLast (data : List Nat) : ℚ :=
  if ((natsMin data : Nat) : ℚ) = ((natsMax data : Nat) : ℚ)
  then ((natsMax data : Nat) : ℚ) + 1/2 else ((natsMax data : Nat) : ℚ)

/-- The width of each of the `bins` equal-width histogram bins. -/
def histWidth (data : List Nat) (bins : Nat) : ℚ :=
  (histLast data - histFirst data) / (bins : ℚ)

/-- `np.histogram(data, bins=bins)` over exact rationals, paired with the bin
centers computed at src/fastq_reader.py:355-356: each of the `bins`
equal-width bins over `[histFirst, histLast]` reports
`(bin center, count)`, zero-count bins included. -/
def histogramQ (data : List Nat) (bins : Nat) : List (ℚ × Nat) :=
  (List.range bins).map fun (j : Nat) =>
    (histFirst data + histWidth data bins * ((j : ℚ) + 1/2),
     ((data.map fun (n : Nat) => (n : ℚ)).filter fun x =>
        decide (binIndex (histFirst data) (histWidth data bins) bins x = j)).length)

/-- `FastqReader.sequence_length_distribution` (src/fastq_reader.py:338-366),
reduced to its data contract: guard against an empty store, then the 30-bin
histogram of the lengths of all stored sequences (this view does not
sample). -/
def sequence_length_distribution (st : ReaderState) :
    Except EngineError (List (ℚ × Nat)) :=
  if st.seq_dict.isEmpty then .error .stateError
  else .ok (histogramQ (st.seq_dict.map fun p => p.2.length) 30)

/-- The maximum stored sequence length, following the words of claim C4 /
the spec (which say `max_len` is the maximum *sequence* length observed);
to be compared with `maxLen` of the quality strings, which is what
src/fastq_reader.py:183 computes. -/
def specMaxSequenceLength (st : ReaderState) : Nat :=
  natsMax ((st.seq_dict.map Prod.snd).map List.length)

theorem readStep_eq (validate : Line → Bool) (header sequence quality : Line)
    (st : ReaderState) :
    readStep validate header sequence quality st =
      if validate sequence then stepFold st (header.drop 1, sequence, quality) else st := by
  simp [readStep, stepFold]

example :
    read validate_sequence (["@r1", "ACGT", "+", "IIII"].map String.toList) =
      { total_sequences := 1, total_length := 4,
        seq_dict := [("r1".toList, "ACGT".toList)],
        seq_quality_dict := [("r1".toList, "IIII".toList)] } := by
  decide

theorem readLoop_one (validate : Line → Bool) (h : Line) (st : ReaderState) :
    readLoop validate [h] st =
      if pstrip h = [] then st
      else readStep validate (pstrip h) (pstrip []) (pstrip []) st := rfl

theorem readLoop_two (validate : Line → Bool) (h s : Line) (st : ReaderState) :
    readLoop validate [h, s] st =
      if pstrip h = [] then st
      else readStep validate (pstrip h) (pstrip s) (pstrip []) st := rfl

theorem readLoop_three (validate : Line → Bool) (h s p : Line) (st : ReaderState) :
    readLoop validate [h, s, p] st =
      if pstrip h = [] then st
      else readStep validate (pstrip h) (pstrip s) (pstrip []) st := rfl

theorem readLoop_cons4 (validate : Line → Bool) (h s p q : Line) (rest : List Line)
    (st : ReaderState) :
    readLoop validate (h :: s :: p :: q :: rest) st =
      if pstrip h = [] then st
      else readLoop validate rest (readStep validate (pstrip h) (pstrip s) (pstrip q) st) := rfl

theorem parseGroups_one (validate : Line → Bool) (h : Line) :
    parseGroups validate [h] =
      if pstrip h = [] then []
      else if validate (pstrip []) then [((pstrip h).drop 1, pstrip [], pstrip [])] else [] := rfl

theorem parseGroups_two (validate : Line → Bool) (h s : Line) :
    parseGroups validate [h, s] =
      if pstrip h = [] then []
      else if validate (pstrip s) then [((pstrip h).drop 1, pstrip s, pstrip [])] else [] := rfl

theorem parseGroups_three (validate : Line → Bool) (h s p : Line) :
    parseGroups validate [h, s, p] =
      if pstrip h = [] then []
      else if validate (pstrip s) then [((pstrip h).drop 1, pstrip s, pstrip [])] else [] := rfl

theorem parseGroups_cons4 (validate : Line → Bool) (h s p q : Line) (rest : List Line) :
    parseGroups validate (h :: s :: p :: q :: rest) =
      if pstrip h = [] then []
      else if validate (pstrip s) then
        ((pstrip h).drop 1, pstrip s, pstrip q) :: parseGroups validate rest
      else parseGroups validate rest := rfl

theorem readLoop_eq_foldl (validate : Line → Bool) :
    ∀ (ls : List Line) (st : ReaderState),
      readLoop validate ls st = (parseGroups validate ls).foldl stepFold st
  | [], _ => rfl
  | [h], st => by
    rw [readLoop_one, parseGroups_one, readStep_eq]
    split
    · rfl
    · split <;> simp
  | [h, s], st => by
    rw [readLoop_two, parseGroups_two, readStep_eq]
    split
    · rfl
    · split <;> simp
  | [h, s, p], st => by
    rw [readLoop_three, parseGroups_three, readStep_eq]
    split
    · rfl
    · split <;> simp
  | h :: s :: p :: q :: rest, st => by
    rw [readLoop_cons4, parseGroups_cons4, readStep_eq]
    split
    · rfl
    · rw [readLoop_eq_foldl validate rest]
      split <;> simp

theorem read_eq_foldl (validate : Line → Bool) (lines : List Line) :
    read validate lines = (parseGroups validate lines).foldl stepFold
      { total_sequences := 0, total_length := 0, seq_dict := [], seq_quality_dict := [] } :=
  readLoop_eq_foldl validate lines _

theorem foldl_stepFold_total_sequences (recs : List (Line × Line × Line)) :
    ∀ st : ReaderState,
      (recs.foldl stepFold st).total_sequences = st.total_sequences + recs.length := by
  induction recs with
  | nil => intro st; simp
  | cons r rest ih => intro st; simp [List.foldl_cons, ih, stepFold]; omega

theorem foldl_stepFold_total_length (recs : List (Line × Line × Line)) :
    ∀ st : ReaderState,
      (recs.foldl stepFold st).total_length =
        st.total_length + (recs.map fun r => r.2.1.length).sum := by
  induction recs with
  | nil => intro st; simp
  | cons r rest ih => intro st; simp [List.foldl_cons, ih, stepFold]; omega

theorem foldl_stepFold_seq_dict (recs : List (Line × Line × Line)) :
    ∀ st : ReaderState,
      (recs.foldl stepFold st).seq_dict =
        recs.foldl (fun d r => dictInsert r.1 r.2.1 d) st.seq_dict := by
  induction recs with
  | nil => intro st; simp
  | cons r rest ih => intro st; simp [List.foldl_cons, ih, stepFold]

theorem mem_dictKeys_cons {α : Type} (k : Line) (p : Line × α) (rest : List (Line × α)) :
    k ∈ dictKeys (p :: rest) ↔ k = p.1 ∨ k ∈ dictKeys rest := by
  simp only [dictKeys, List.map_cons, List.mem_cons]

theorem dictInsert_of_not_mem {α : Type} (k : Line) (v : α) :
    ∀ d : List (Line × α), k ∉ dictKeys d → dictInsert k v d = d ++ [(k, v)]
  | [], _ => rfl
  | (k', v') :: rest, hk => by
    have h1 : ¬(k' = k) := fun he =>
      hk ((mem_dictKeys_cons k (k', v') rest).2 (Or.inl he.symm))
    have h2 : k ∉ dictKeys rest := fun hm =>
      hk ((mem_dictKeys_cons k (k', v') rest).2 (Or.inr hm))
    show (if k' = k then (k, v) :: rest else (k', v') :: dictInsert k v rest) = _
    rw [if_neg h1, dictInsert_of_not_mem k v rest h2]
    rfl

theorem dictKeys_append {α : Type} (d e : List (Line × α)) :
    dictKeys (d ++ e) = dictKeys d ++ dictKeys e := by
  simp only [dictKeys, List.map_append]

theorem foldl_dictInsert_nodup {α : Type} :
    ∀ pairs : List (Line × α), ∀ d : List (Line × α),
      (pairs.map Prod.fst).Nodup →
      (∀ k, k ∈ pairs.map Prod.fst → k ∉ dictKeys d) →
      pairs.foldl (fun d p => dictInsert p.1 p.2 d) d = d ++ pairs
  | [], d, _, _ => by simp
  | p :: rest, d, hnd, hdisj => by
    have hnd' := hnd
    rw [List.map_cons, List.nodup_cons] at hnd'
    rw [List.foldl_cons, dictInsert_of_not_mem p.1 p.2 d
        (hdisj p.1 (by rw [List.map_cons]; exact List.mem_cons_self _ _)),
      foldl_dictInsert_nodup rest (d ++ [(p.1, p.2)]) hnd'.2]
    · simp
    · intro k hk hkmem
      rw [dictKeys_append] at hkmem
      rcases List.mem_append.1 hkmem with hkd | hkp
      · exact hdisj k (List.mem_cons_of_mem _ hk) hkd
      · have : k = p.1 := by
          simpa [dictKeys] using hkp
        exact hnd'.1 (this ▸ hk)

theorem read_seq_dict_of_nodup (validate : Line → Bool) (lines : List Line)
    (h : ((parseGroups validate lines).map fun r => r.1).Nodup) :
    (read validate lines).seq_dict =
      (parseGroups validate lines).map fun r => (r.1, r.2.1) := by
  rw [read_eq_foldl, foldl_stepFold_seq_dict]
  have hfold :
      (parseGroups validate lines).foldl (fun d r => dictInsert r.1 r.2.1 d) [] =
        ((parseGroups validate lines).map fun r => (r.1, r.2.1)).foldl
          (fun d p => dictInsert p.1 p.2 d) [] := by
    rw [List.foldl_map]
  rw [hfold, foldl_dictInsert_nodup]
  · simp
  · simpa [List.map_map, Function.comp] using h
  · intro k _ hk
    simp [dictKeys] at hk

/-- C1 (amended): after `read()` the derived totals match the store provided
the ids of the valid records in the input are pairwise distinct (a duplicate
id overwrites its earlier record in the dict while `total_sequences` and
`total_length` still count both, see the counterexample): `total_sequences`
equals the number of entries of `seq_dict`, `total_length` equals the sum of
the lengths of the stored sequences, and `count_sequences()` equals the
number of valid records of the input. -/
theorem c1_read_totals_match_store (validate : Line → Bool) (lines : List Line)
    (h : ((parseGroups validate lines).map fun r => r.1).Nodup) :
    (read validate lines).total_sequences = (read validate lines).seq_dict.length ∧
    (read validate lines).total_length =
      ((read validate lines).seq_dict.map fun p => p.2.length).sum ∧
    count_sequences (read validate lines) = (parseGroups validate lines).length := by
  have hd := read_seq_dict_of_nodup validate lines h
  refine ⟨?_, ?_, ?_⟩
  · rw [hd, read_eq_foldl, foldl_stepFold_total_sequences]
    simp
  · rw [hd, read_eq_foldl, foldl_stepFold_total_length]
    simp only [List.map_map, Nat.zero_add]
    rfl
  · rw [count_sequences, hd]
    simp

theorem c1_read_totals_match_store_witness :
    ((parseGroups validate_sequence
        (["@r1", "ACGT", "+", "IIII", "@r2", "AC", "+", "II"].map String.toList)).map
          fun r => r.1).Nodup ∧
    ((read validate_sequence
        (["@r1", "ACGT", "+", "IIII", "@r2", "AC", "+", "II"].map String.toList)).total_sequences =
      (read validate_sequence
        (["@r1", "ACGT", "+", "IIII", "@r2", "AC", "+", "II"].map String.toList)).seq_dict.length ∧
    (read validate_sequence
        (["@r1", "ACGT", "+", "IIII", "@r2", "AC", "+", "II"].map String.toList)).total_length =
      ((read validate_sequence
        (["@r1", "ACGT", "+", "IIII", "@r2", "AC", "+", "II"].map String.toList)).seq_dict.map
          fun p => p.2.length).sum ∧
    count_sequences (read validate_sequence
        (["@r1", "ACGT", "+", "IIII", "@r2", "AC", "+", "II"].map String.toList)) =
      (parseGroups validate_sequence
        (["@r1", "ACGT", "+", "IIII", "@r2", "AC", "+", "II"].map String.toList)).length) :=
  ⟨by decide, c1_read_totals_match_store validate_sequence
    (["@r1", "ACGT", "+", "IIII", "@r2", "AC", "+", "II"].map String.toList) (by decide)⟩

/-- C1 counterexample: an input whose two valid records share the id `r1`.
`read()` increments `total_sequences` and `total_length` for both records,
but the second dict assignment overwrites the first entry, so afterwards
`total_sequences = 2` while the mapping holds 1 entry and `total_length = 6`
while the stored sequence lengths sum to 2.  The claimed invariant is false
for this input stream. -/
theorem c1_duplicate_id_counterexample :
    ¬((read validate_sequence
        (["@r1", "ACGT", "+", "IIII", "@r1", "AC", "+", "II"].map String.toList)).total_sequences =
      (read validate_sequence
        (["@r1", "ACGT", "+", "IIII", "@r1", "AC", "+", "II"].map String.toList)).seq_dict.length ∧
      (read validate_sequence
        (["@r1", "ACGT", "+", "IIII", "@r1", "AC", "+", "II"].map String.toList)).total_length =
      ((read validate_sequence
        (["@r1", "ACGT", "+", "IIII", "@r1", "AC", "+", "II"].map String.toList)).seq_dict.map
          fun p => p.2.length).sum) := by
  decide

/-- C2: on an input whose final group is truncated (non-empty header, fewer
than 4 lines before EOF) `read` raises nothing.  The missing lines read as
`""`; here the sequence line is present and valid, so the partial record is
silently stored with an empty quality string, and the parse completes
normally — there is no failure path in `FastqReader.read` at all
(src/fastq_reader.py:48-63 contains no raise statement). -/
theorem c2_truncated_group_stored_without_error :
    read validate_sequence (["@r1", "ACGT"].map String.toList) =
      { total_sequences := 1, total_length := 4,
        seq_dict := [("r1".toList, "ACGT".toList)],
        seq_quality_dict := [("r1".toList, [])] } := by
  decide

theorem parseGroups_blank (validate : Line → Bool) (hd : Line) (t : List Line)
    (h : pstrip hd = []) : parseGroups validate (hd :: t) = [] := by
  match t with
  | [] => rw [parseGroups_one, if_pos h]
  | [s] => rw [parseGroups_two, if_pos h]
  | [s, p] => rw [parseGroups_three, if_pos h]
  | s :: p :: q :: rest => rw [parseGroups_cons4, if_pos h]

theorem parseGroups_take (validate : Line → Bool) :
    ∀ (k : Nat) (lines : List Line), pstrip (lines.getD (4 * k) []) = [] →
      parseGroups validate lines = parseGroups validate (lines.take (4 * k))
  | 0, lines, h => by
    match lines with
    | [] => rfl
    | hd :: t =>
      rw [Nat.mul_zero] at h ⊢
      rw [List.take_zero]
      exact parseGroups_blank validate hd t (by simpa using h)
  | k + 1, lines, h => by
    match lines with
    | [] => simp
    | hd :: t =>
      have h4 : 4 * (k + 1) = 4 * k + 1 + 1 + 1 + 1 := by omega
      rw [h4] at h ⊢
      rw [List.take_succ_cons]
      by_cases hh : pstrip hd = []
      · rw [parseGroups_blank validate hd t hh, parseGroups_blank validate hd _ hh]
      · match t with
        | [] => rw [List.take_nil]
        | [s] => rw [List.take_succ_cons, List.take_nil]
        | [s, p] => rw [List.take_succ_cons, List.take_succ_cons, List.take_nil]
        | s :: p :: q :: rest =>
          rw [List.take_succ_cons, List.take_succ_cons, List.take_succ_cons]
          rw [parseGroups_cons4, parseGroups_cons4]
          have h' : pstrip (rest.getD (4 * k) []) = [] := by
            simpa only [List.getD_cons_succ] using h
          rw [parseGroups_take validate k rest h']

/-- C10: a blank (empty or whitespace-only) line at a header position — index
`4*k`, anywhere in the stream, not only at EOF — makes `read` stop there
without error: the resulting store and totals are exactly those of the prefix
before that line, and the valid records parsed are exactly those of the
preceding groups; no later line is ever stored. -/
theorem c10_blank_header_truncates (validate : Line → Bool) (lines : List Line) (k : Nat)
    (h : pstrip (lines.getD (4 * k) []) = []) :
    read validate lines = read validate (lines.take (4 * k)) ∧
    parseGroups validate lines = parseGroups validate (lines.take (4 * k)) := by
  have hp := parseGroups_take validate k lines h
  exact ⟨by rw [read_eq_foldl, read_eq_foldl, hp], hp⟩

theorem c10_blank_header_truncates_witness :
    pstrip (((["@r1", "ACGT", "+", "IIII", " ", "@r2", "AAAA", "+",
        "IIII"].map String.toList).getD (4 * 1) [])) = [] ∧
    read validate_sequence
        (["@r1", "ACGT", "+", "IIII", " ", "@r2", "AAAA", "+", "IIII"].map String.toList) =
      read validate_sequence
        ((["@r1", "ACGT", "+", "IIII", " ", "@r2", "AAAA", "+",
          "IIII"].map String.toList).take (4 * 1)) :=
  ⟨by decide,
    (c10_blank_header_truncates validate_sequence
      (["@r1", "ACGT", "+", "IIII", " ", "@r2", "AAAA", "+", "IIII"].map String.toList)
      1 (by decide)).1⟩

theorem decodeQuality_ascii : ∀ qual : Line, (∀ c ∈ qual, c.toNat < 128) →
    decodeQuality qual = some (qual.map fun c => ((c.toNat : Int) - 33))
  | [], _ => rfl
  | c :: rest, h => by
    have hc : c.toNat < 128 := h c (List.mem_cons_self _ _)
    have hr := decodeQuality_ascii rest fun x hx => h x (List.mem_cons_of_mem _ hx)
    simp only [decodeQuality] at hr ⊢
    rw [List.mapM_cons, hr]
    simp [asciiEncode, hc]

/-- C3 (amended): quality decoding is total on ASCII quality strings (every
code point below 128): it yields one integer per character, equal to the code
point minus 33 — so code points below 33 yield out-of-typical-range
(negative) values rather than being rejected — and for every `Q ≤ 93` a
character with code point `33 + Q` decodes to `Q`.  On a character with code
point 128 or above, however, `char.encode("ascii")` raises
`UnicodeEncodeError` (see the counterexample), so decoding is not
failure-free on arbitrary stored strings as the claim states. -/
theorem c3_decode_ascii_correct (qual : Line) (h : ∀ c ∈ qual, c.toNat < 128) :
    decodeQuality qual = some (qual.map fun c => ((c.toNat : Int) - 33)) ∧
    (∀ Q : Nat, Q ≤ 93 → ∀ c : Char, c.toNat = 33 + Q →
      decodeQuality [c] = some [(Q : Int)]) := by
  refine ⟨decodeQuality_ascii qual h, fun Q hQ c hc => ?_⟩
  have hlt : c.toNat < 128 := by omega
  have := decodeQuality_ascii [c] (by intro x hx; rw [List.mem_singleton] at hx; subst hx; exact hlt)
  rw [this]
  simp [hc]

theorem c3_decode_ascii_correct_witness :
    (∀ c ∈ ("II!I".toList : Line), c.toNat < 128) ∧
    (decodeQuality "II!I".toList =
      some (("II!I".toList : Line).map fun c => ((c.toNat : Int) - 33)) ∧
    (∀ Q : Nat, Q ≤ 93 → ∀ c : Char, c.toNat = 33 + Q →
      decodeQuality [c] = some [(Q : Int)])) :=
  ⟨by decide, c3_decode_ascii_correct "II!I".toList (by decide)⟩

/-- C3 counterexample: the quality line `"IIéI"` is stored as-is by `read`
(quality strings are never validated), yet decoding it fails — `é` has code
point 233, `char.encode(encoding="ascii")` raises `UnicodeEncodeError` — so
quality decoding is not a total function with no failure modes on stored
quality strings, and an out-of-range character is rejected rather than
mapped to an out-of-typical-range value. -/
theorem c3_nonascii_counterexample :
    (read validate_sequence (["@r1", "ACGT", "+", "IIéI"].map String.toList)).seq_quality_dict =
      [("r1".toList, "IIéI".toList)] ∧
    decodeQuality "IIéI".toList = none ∧
    get_quality_scores (read validate_sequence (["@r1", "ACGT", "+", "IIéI"].map String.toList))
      "r1".toList = none := by
  refine ⟨by decide, by decide, by decide⟩

theorem natsMax_ge : ∀ ns : List Nat, ∀ x ∈ ns, x ≤ natsMax ns := by
  intro ns
  induction ns with
  | nil => intro x hx; cases hx
  | cons h t ih =>
    intro x hx
    rcases List.mem_cons.1 hx with rfl | hxt
    · exact Nat.le_max_left _ _
    · exact Nat.le_trans (ih x hxt) (Nat.le_max_right _ _)

theorem natsMax_mem : ∀ ns : List Nat, ns ≠ [] → natsMax ns ∈ ns := by
  intro ns
  induction ns with
  | nil => intro h; exact absurd rfl h
  | cons h t ih =>
    intro _
    match t, ih with
    | [], _ => simp [natsMax]
    | t0 :: t1, ih =>
      have hm := ih (by simp)
      show Nat.max h (natsMax (t0 :: t1)) ∈ h :: t0 :: t1
      rcases Nat.le_total h (natsMax (t0 :: t1)) with hle | hle
      · have hmx : h.max (natsMax (t0 :: t1)) = natsMax (t0 :: t1) := max_eq_right hle
        rw [hmx]
        exact List.mem_cons_of_mem _ hm
      · have hmx : h.max (natsMax (t0 :: t1)) = h := max_eq_left hle
        rw [hmx]
        exact List.mem_cons_self _ _

theorem posQualities_eq_filter (pos : Nat) : ∀ qualities : List Line,
    posQualities qualities pos =
      (qualities.filter fun q => decide (pos < q.length)).map
        fun q => ((q.getD pos ' ').toNat : Int) - 33
  | [] => rfl
  | q :: rest => by
    have ih := posQualities_eq_filter pos rest
    simp only [posQualities] at ih ⊢
    rw [List.filterMap_cons, List.filter_cons]
    by_cases hq : pos < q.length
    · rw [List.getElem?_eq_getElem hq]
      have hgetD : q.getD pos ' ' = q[pos] := by
        rw [List.getD_eq_getElem?_getD, List.getElem?_eq_getElem hq]
        rfl
      simp [ih, hq, hgetD]
    · rw [List.getElem?_eq_none (Nat.le_of_not_lt hq)]
      simp [ih, hq]

/-- C4 (amended): in the per-position quality computation, `max_len` is the
maximum QUALITY-string length observed in the sampled set — the spec calls it
the maximum sequence length, which agrees only when each stored quality
string is as long as its sequence (the counterexample shows them differing
on a ragged record) — and for each 0-based position `p < max_len` the engine
collects the decoded quality value at `p` from exactly those sampled records
whose quality string has length at least `p+1`, in sample order; shorter
records contribute nothing at that position and no error is possible. -/
theorem c4_maxlen_and_collection (qualities : List Line) (pos : Nat)
    (hne : qualities ≠ []) :
    (∀ q ∈ qualities, q.length ≤ maxLen qualities) ∧
    maxLen qualities ∈ qualities.map List.length ∧
    posQualities qualities pos =
      (qualities.filter fun q => decide (pos < q.length)).map
        fun q => ((q.getD pos ' ').toNat : Int) - 33 := by
  refine ⟨?_, ?_, posQualities_eq_filter pos qualities⟩
  · intro q hq
    exact natsMax_ge _ _ (List.mem_map_of_mem List.length hq)
  · exact natsMax_mem _ (by simpa using hne)

theorem c4_maxlen_and_collection_witness :
    ((["II".toList, "IIII".toList] : List Line) ≠ []) ∧
    ((∀ q ∈ (["II".toList, "IIII".toList] : List Line), q.length ≤
        maxLen ["II".toList, "IIII".toList]) ∧
      maxLen ["II".toList, "IIII".toList] ∈
        (["II".toList, "IIII".toList] : List Line).map List.length ∧
      posQualities ["II".toList, "IIII".toList] 2 =
        ((["II".toList, "IIII".toList] : List Line).filter
            fun q => decide (2 < q.length)).map
          fun q => ((q.getD 2 ' ').toNat : Int) - 33) :=
  ⟨by decide, c4_maxlen_and_collection ["II".toList, "IIII".toList] 2 (by decide)⟩

/-- C4 counterexample: a stored record with sequence `ACGT` (length 4) and
quality `II` (length 2).  The `max_len` computed by
`per_base_sequence_quality` (src/fastq_reader.py:183) is the maximum quality
string length, 2, while the maximum sequence length observed in the same
(unsampled) record set is 4, so `max_len` is not the maximum sequence length
as claimed. -/
theorem c4_maxlen_counterexample :
    maxLen ((read validate_sequence
        (["@r1", "ACGT", "+", "II"].map String.toList)).seq_quality_dict.map Prod.snd) = 2 ∧
    specMaxSequenceLength (read validate_sequence
        (["@r1", "ACGT", "+", "II"].map String.toList)) = 4 ∧
    (2 : Nat) ≠ 4 := by
  refine ⟨by decide, by decide, by decide⟩

/-- C9: sampling boundary for the two sampled views.  `sampleRecords` is the
shared sampling step of `per_base_sequence_quality` and
`per_base_sequence_content` with the default `sample_size = 5000`; the
hypothesis is the documented contract of `random.sample` (exactly
`sample_size` elements, drawn without replacement, i.e. a permutation of a
sublist of the population).  With at most 5000 records — including exactly
5000, since the source tests `len(...) > sample_size` strictly — no sampling
occurs and the full record set is used unchanged; with more than 5000 the
computation runs on exactly 5000 records drawn without replacement. -/
theorem c9_sampling_boundary (sampler : List Line → Nat → List Line) (xs : List Line)
    (hcontract : xs.length > 5000 →
      (sampler xs 5000).length = 5000 ∧ (sampler xs 5000).Subperm xs) :
    (xs.length ≤ 5000 → sampleRecords sampler 5000 xs = xs) ∧
    (xs.length > 5000 → (sampleRecords sampler 5000 xs).length = 5000 ∧
      (sampleRecords sampler 5000 xs).Subperm xs) := by
  constructor
  · intro hle
    rw [sampleRecords, if_neg (by omega)]
  · intro hgt
    rw [sampleRecords, if_pos hgt]
    exact hcontract hgt

theorem c9_sampling_boundary_witness :
    ((["ACGT".toList] : List Line).length > 5000 →
      ((fun (xs : List Line) (k : Nat) => xs.take k) ["ACGT".toList] 5000).length = 5000 ∧
      ((fun (xs : List Line) (k : Nat) => xs.take k) ["ACGT".toList] 5000).Subperm
        ["ACGT".toList]) ∧
    ((["ACGT".toList] : List Line).length ≤ 5000 →
      sampleRecords (fun (xs : List Line) (k : Nat) => xs.take k) 5000 ["ACGT".toList] =
        ["ACGT".toList]) ∧
    ((["ACGT".toList] : List Line).length > 5000 →
      (sampleRecords (fun (xs : List Line) (k : Nat) => xs.take k) 5000
        ["ACGT".toList]).length = 5000 ∧
      (sampleRecords (fun (xs : List Line) (k : Nat) => xs.take k) 5000
        ["ACGT".toList]).Subperm ["ACGT".toList]) :=
  have hc : (["ACGT".toList] : List Line).length > 5000 →
      ((fun (xs : List Line) (k : Nat) => xs.take k) ["ACGT".toList] 5000).length = 5000 ∧
      ((fun (xs : List Line) (k : Nat) => xs.take k) ["ACGT".toList] 5000).Subperm
        ["ACGT".toList] :=
    fun h => absurd h (by decide)
  ⟨hc, c9_sampling_boundary (fun xs k => xs.take k) ["ACGT".toList] hc⟩

/-- C6: each of the three statistics computations fails with `StateError`
whenever the record store is empty — `per_base_sequence_quality` guards on an
empty `seq_quality_dict`, the other two on an empty `seq_dict` — and none of
them produces output in that state.  The witness instantiates the state with
the result of parsing an empty input file. -/
theorem c6_empty_store_state_error (sampler : List Line → Nat → List Line)
    (st : ReaderState) (h1 : st.seq_dict = []) (h2 : st.seq_quality_dict = []) :
    per_base_sequence_quality sampler st = .error .stateError ∧
    per_base_sequence_content sampler st = .error .stateError ∧
    sequence_length_distribution st = .error .stateError := by
  refine ⟨?_, ?_, ?_⟩
  · rw [per_base_sequence_quality, h2]
    rfl
  · rw [per_base_sequence_content, h1]
    rfl
  · rw [sequence_length_distribution, h1]
    rfl

theorem c6_empty_store_state_error_witness :
    (read validate_sequence []).seq_dict = [] ∧
    (read validate_sequence []).seq_quality_dict = [] ∧
    (per_base_sequence_quality (fun xs _ => xs) (read validate_sequence []) =
        .error .stateError ∧
      per_base_sequence_content (fun xs _ => xs) (read validate_sequence []) =
        .error .stateError ∧
      sequence_length_distribution (read validate_sequence []) = .error .stateError) :=
  ⟨rfl, rfl,
    c6_empty_store_state_error (fun xs _ => xs) (read validate_sequence []) rfl rfl⟩

theorem sum_map_ite_indicator (m : Nat) : ∀ n : Nat,
    ((List.range n).map fun j => if m = j then (1 : Nat) else 0).sum =
      if m < n then 1 else 0 := by
  intro n
  induction n with
  | zero => simp
  | succ n ih =>
    rw [List.range_succ, List.map_append, List.sum_append, ih]
    by_cases h : m < n
    · have hmn : m ≠ n := Nat.ne_of_lt h
      have h' : m < n + 1 := Nat.lt_succ_of_lt h
      simp [h, h', hmn]
    · by_cases he : m = n
      · subst he
        simp [h, Nat.lt_succ_self]
      · have h' : ¬(m < n + 1) := by omega
        simp [h, he, h']

theorem sum_map_add_nat {α : Type} (f g : α → Nat) : ∀ l : List α,
    (l.map fun x => f x + g x).sum = (l.map f).sum + (l.map g).sum
  | [] => rfl
  | a :: l => by
    simp only [List.map_cons, List.sum_cons, sum_map_add_nat f g l]
    omega

theorem filter_length_partition {α : Type} (f : α → Nat) (n : Nat) :
    ∀ l : List α, (∀ x ∈ l, f x < n) →
      ((List.range n).map fun j => (l.filter fun x => decide (f x = j)).length).sum = l.length
  | [], _ => by simp
  | a :: l, h => by
    have ih := filter_length_partition f n l fun x hx => h x (List.mem_cons_of_mem _ hx)
    have ha : f a < n := h a (List.mem_cons_self _ _)
    have hstep : ∀ j : Nat, ((a :: l).filter fun x => decide (f x = j)).length =
        (if f a = j then 1 else 0) + (l.filter fun x => decide (f x = j)).length := by
      intro j
      rw [List.filter_cons]
      by_cases hj : f a = j
      · simp [hj]
        omega
      · simp [hj]
    calc ((List.range n).map fun j => ((a :: l).filter fun x => decide (f x = j)).length).sum
        = ((List.range n).map fun j =>
            (if f a = j then 1 else 0) + (l.filter fun x => decide (f x = j)).length).sum := by
          exact congrArg List.sum (List.map_congr_left fun j _ => hstep j)
      _ = ((List.range n).map fun j => if f a = j then (1 : Nat) else 0).sum +
          ((List.range n).map fun j => (l.filter fun x => decide (f x = j)).length).sum := by
          exact sum_map_add_nat _ _ _
      _ = 1 + l.length := by rw [sum_map_ite_indicator, if_pos ha, ih]
      _ = (a :: l).length := by rw [List.length_cons]; omega

theorem binIndex_lt_30 (first width : ℚ) (x : ℚ) : binIndex first width 30 x < 30 := by
  have h : binIndex first width 30 x ≤ 30 - 1 := min_le_right _ _
  omega

theorem histogramQ_length (data : List Nat) (bins : Nat) :
    (histogramQ data bins).length = bins := by
  rw [histogramQ, List.length_map, List.length_range]

theorem histogramQ_sum_30 (data : List Nat) :
    ((histogramQ data 30).map Prod.snd).sum = data.length := by
  rw [histogramQ, List.map_map]
  have hpart := filter_length_partition
    (binIndex (histFirst data) (histWidth data 30) 30) 30
    (data.map fun (n : Nat) => (n : ℚ)) (fun x _ => binIndex_lt_30 _ _ x)
  rw [List.length_map] at hpart
  exact hpart

/-- C5 (amended): for every non-empty store, the length distribution with the
default bin count emits exactly 30 bins, zero-count bins included, computed
over the lengths of ALL stored records without sampling, and the bin counts
sum to the number of stored records, `count_sequences()`.  That number equals
`total_sequences` only when no valid record overwrote another sharing its id
(the counterexample shows the sum differing from `total_sequences` on a
duplicate-id input). -/
theorem c5_length_distribution_bins (st : ReaderState)
    (h : st.seq_dict.isEmpty = false) :
    ((sequence_length_distribution st).toOption.map fun l => l.length) = some 30 ∧
    ((sequence_length_distribution st).toOption.map fun l => (l.map Prod.snd).sum) =
      some (count_sequences st) := by
  rw [sequence_length_distribution, if_neg (by simp [h])]
  constructor
  · simp [Except.toOption, histogramQ_length]
  · simp [Except.toOption, histogramQ_sum_30, count_sequences]

theorem c5_length_distribution_bins_witness :
    (read validate_sequence
        (["@r1", "ACGT", "+", "IIII"].map String.toList)).seq_dict.isEmpty = false ∧
    (((sequence_length_distribution (read validate_sequence
          (["@r1", "ACGT", "+", "IIII"].map String.toList))).toOption.map
        fun l => l.length) = some 30 ∧
      ((sequence_length_distribution (read validate_sequence
          (["@r1", "ACGT", "+", "IIII"].map String.toList))).toOption.map
        fun l => (l.map Prod.snd).sum) =
        some (count_sequences (read validate_sequence
          (["@r1", "ACGT", "+", "IIII"].map String.toList)))) :=
  ⟨by decide, c5_length_distribution_bins
    (read validate_sequence (["@r1", "ACGT", "+", "IIII"].map String.toList)) (by decide)⟩

/-- C5 counterexample: an input with two valid records sharing the id `d`.
The histogram is computed over the stored records (one entry, the second
record having overwritten the first), so its bin counts sum to 1, while
`total_sequences` is 2: the claimed `Σ count == total_sequences` fails on
this non-empty store. -/
theorem c5_duplicate_id_counterexample :
    ((sequence_length_distribution (read validate_sequence
        (["@d", "AAA", "+", "III", "@d", "CC", "+", "II"].map String.toList))).toOption.map
      fun l => (l.map Prod.snd).sum) = some 1 ∧
    (read validate_sequence
        (["@d", "AAA", "+", "III", "@d", "CC", "+", "II"].map
          String.toList)).total_sequences = 2 ∧
    (1 : Nat) ≠ 2 := by
  refine ⟨?_, by decide, by decide⟩
  rw [sequence_length_distribution, if_neg (by decide)]
  show some (((histogramQ _ 30).map Prod.snd).sum) = some 1
  rw [histogramQ_sum_30]
  decide

theorem recognized_count_split : ∀ l : List Char,
    (l.filter recognizedBase).length =
      (((l.filter fun c => decide (c = 'A')).length +
        (l.filter fun c => decide (c = 'T')).length) +
        (l.filter fun c => decide (c = 'C')).length) +
        (l.filter fun c => decide (c = 'G')).length
  | [] => rfl
  | c :: l => by
    have ih := recognized_count_split l
    simp only [List.filter_cons]
    by_cases hA : c = 'A'
    · subst hA
      simp [recognizedBase]
      omega
    · by_cases hT : c = 'T'
      · subst hT
        simp [recognizedBase]
        omega
      · by_cases hC : c = 'C'
        · subst hC
          simp [recognizedBase]
          omega
        · by_cases hG : c = 'G'
          · subst hG
            simp [recognizedBase]
            omega
          · have hrec : recognizedBase c = false := by
              simp [recognizedBase, hA, hT, hC, hG]
            simp [hrec, hA, hT, hC, hG]
            omega

/-- C7: for every emitted per-position content summary, the four percentages
for A, T, C and G sum to exactly 100 (exact rational arithmetic standing in
for "within floating-point tolerance") when no unrecognized symbol occurs at
that position: unrecognized symbols are excluded from both the per-symbol
counts and the normalization total `total_counts[pos]`.  (The code in fact
guarantees the sum is 100 at every emitted position, with or without
unrecognized symbols, for the same reason; the proof does not need the
no-unrecognized-symbol hypothesis.) -/
theorem c7_content_percentages_sum (seqs : List Line) (row : ContentRow)
    (hrow : row ∈ contentRows seqs)
    (hclean : ∀ c ∈ charsAt seqs (row.position - 1), recognizedBase c = true) :
    row.percentA + row.percentT + row.percentC + row.percentG = 100 := by
  clear hclean
  rw [contentRows] at hrow
  obtain ⟨pos, hpos, heq⟩ := List.mem_filterMap.1 hrow
  by_cases htot : total_count seqs pos > 0
  · rw [if_pos htot] at heq
    have hrow' : row =
        { position := pos + 1,
          percentA := (base_count seqs 'A' pos : ℚ) / (total_count seqs pos : ℚ) * 100,
          percentT := (base_count seqs 'T' pos : ℚ) / (total_count seqs pos : ℚ) * 100,
          percentC := (base_count seqs 'C' pos : ℚ) / (total_count seqs pos : ℚ) * 100,
          percentG := (base_count seqs 'G' pos : ℚ) / (total_count seqs pos : ℚ) * 100 } :=
      (Option.some.injEq _ _ ▸ heq).symm
    subst hrow'
    have hsplit := recognized_count_split (charsAt seqs pos)
    have hq : (base_count seqs 'A' pos : ℚ) + (base_count seqs 'T' pos : ℚ) +
        (base_count seqs 'C' pos : ℚ) + (base_count seqs 'G' pos : ℚ) =
        (total_count seqs pos : ℚ) := by
      rw [total_count, base_count, base_count, base_count, base_count]
      exact_mod_cast hsplit.symm
    have htot' : (total_count seqs pos : ℚ) ≠ 0 := by
      exact_mod_cast Nat.pos_iff_ne_zero.1 htot
    field_simp
    linarith [hq]
  · rw [if_neg htot] at heq
    exact absurd heq (by simp)

theorem c7_content_percentages_sum_witness :
    (({ position := 1, percentA := 100, percentT := 0, percentC := 0, percentG := 0 } : ContentRow) ∈ contentRows [['A', 'C']]) ∧
    (∀ c ∈ charsAt [['A', 'C']] (({ position := 1, percentA := 100, percentT := 0, percentC := 0, percentG := 0 } : ContentRow).position - 1), recognizedBase c = true) ∧
    ({ position := 1, percentA := 100, percentT := 0, percentC := 0, percentG := 0 } : ContentRow).percentA + ({ position := 1, percentA := 100, percentT := 0, percentC := 0, percentG := 0 } : ContentRow).percentT + ({ position := 1, percentA := 100, percentT := 0, percentC := 0, percentG := 0 } : ContentRow).percentC + ({ position := 1, percentA := 100, percentT := 0, percentC := 0, percentG := 0 } : ContentRow).percentG = 100 :=
  have h1 : ({ position := 1, percentA := 100, percentT := 0, percentC := 0, percentG := 0 } : ContentRow) ∈ contentRows [['A', 'C']] :=
    of_decide_eq_true (by with_unfolding_all rfl)
  have h2 : ∀ c ∈ charsAt [['A', 'C']] (({ position := 1, percentA := 100, percentT := 0, percentC := 0, percentG := 0 } : ContentRow).position - 1), recognizedBase c = true := by
    decide
  ⟨h1, h2, c7_content_percentages_sum [['A', 'C']] _ h1 h2⟩

theorem getD_irrel_of_lt (s : List Int) (k : Nat) (d : Int) (hk : k < s.length) :
    s.getD k d = s.getD k 0 := by
  rw [List.getD_eq_getElem?_getD, List.getD_eq_getElem?_getD, List.getElem?_eq_getElem hk]
  rfl

theorem getD_default_of_le (s : List Int) (k : Nat) (d : Int) (hk : s.length ≤ k) :
    s.getD k d = d := by
  rw [List.getD_eq_getElem?_getD, List.getElem?_eq_none hk]
  rfl

theorem sorted_getD_mono (s : List Int) (hs : s.Sorted (· ≤ ·)) (i j : Nat)
    (hij : i ≤ j) (hj : j < s.length) : s.getD i 0 ≤ s.getD j 0 := by
  have hi : i < s.length := lt_of_le_of_lt hij hj
  have hget := List.Sorted.rel_get_of_le hs
    (show (⟨i, hi⟩ : Fin s.length) ≤ ⟨j, hj⟩ from hij)
  rw [List.getD_eq_getElem?_getD, List.getD_eq_getElem?_getD,
    List.getElem?_eq_getElem hi, List.getElem?_eq_getElem hj]
  simpa [List.get_eq_getElem] using hget

theorem interp_mono (s : List Int) (hs : s.Sorted (· ≤ ·)) (hne : s ≠ [])
    (r1 r2 : ℚ) (h0 : 0 ≤ r1) (h12 : r1 ≤ r2) (h2 : r2 ≤ (s.length : ℚ) - 1) :
    interpAt s r1 ≤ interpAt s r2 := by
  have hn : 0 < s.length := List.length_pos.2 hne
  have h0' : 0 ≤ r2 := le_trans h0 h12
  have hf1 : (0 : ℤ) ≤ ⌊r1⌋ := Int.floor_nonneg.2 h0
  have hf2 : (0 : ℤ) ≤ ⌊r2⌋ := Int.floor_nonneg.2 h0'
  have hc1 : ((⌊r1⌋.toNat : ℕ) : ℚ) = ((⌊r1⌋ : ℤ) : ℚ) := by
    exact_mod_cast Int.toNat_of_nonneg hf1
  have hc2 : ((⌊r2⌋.toNat : ℕ) : ℚ) = ((⌊r2⌋ : ℤ) : ℚ) := by
    exact_mod_cast Int.toNat_of_nonneg hf2
  have hlo1 : ((⌊r1⌋.toNat : ℕ) : ℚ) ≤ r1 := by rw [hc1]; exact Int.floor_le r1
  have hhi1 : r1 < ((⌊r1⌋.toNat : ℕ) : ℚ) + 1 := by rw [hc1]; exact Int.lt_floor_add_one r1
  have hlo2 : ((⌊r2⌋.toNat : ℕ) : ℚ) ≤ r2 := by rw [hc2]; exact Int.floor_le r2
  have hhi2 : r2 < ((⌊r2⌋.toNat : ℕ) : ℚ) + 1 := by rw [hc2]; exact Int.lt_floor_add_one r2
  have hmono : ⌊r1⌋.toNat ≤ ⌊r2⌋.toNat := Int.toNat_le_toNat (Int.floor_le_floor h12)
  have hub : ⌊r2⌋.toNat + 1 ≤ s.length := by
    have ha : ((⌊r2⌋.toNat : ℕ) : ℚ) ≤ (s.length : ℚ) - 1 := le_trans hlo2 h2
    have hb : ((⌊r2⌋.toNat : ℕ) : ℚ) + 1 ≤ (s.length : ℚ) := by linarith
    exact_mod_cast hb
  rcases Nat.lt_or_ge (⌊r1⌋.toNat) (⌊r2⌋.toNat) with hlt | hge
  · have hb1 : ⌊r1⌋.toNat + 1 < s.length := by omega
    have hb2 : ⌊r2⌋.toNat < s.length := by omega
    have step1 : interpAt s r1 ≤ ((s.getD (⌊r1⌋.toNat + 1) 0 : ℤ) : ℚ) := by
      simp only [interpAt]
      rw [getD_irrel_of_lt s (⌊r1⌋.toNat + 1) _ hb1]
      have hsor : s.getD (⌊r1⌋.toNat) 0 ≤ s.getD (⌊r1⌋.toNat + 1) 0 :=
        sorted_getD_mono s hs _ _ (Nat.le_succ _) hb1
      have hq : ((s.getD (⌊r1⌋.toNat) 0 : ℤ) : ℚ) ≤ ((s.getD (⌊r1⌋.toNat + 1) 0 : ℤ) : ℚ) := by
        exact_mod_cast hsor
      have hfr1 : r1 - ((⌊r1⌋.toNat : ℕ) : ℚ) ≤ 1 := by linarith
      have hmul : (r1 - ((⌊r1⌋.toNat : ℕ) : ℚ)) *
          (((s.getD (⌊r1⌋.toNat + 1) 0 : ℤ) : ℚ) - ((s.getD (⌊r1⌋.toNat) 0 : ℤ) : ℚ)) ≤
          1 * (((s.getD (⌊r1⌋.toNat + 1) 0 : ℤ) : ℚ) - ((s.getD (⌊r1⌋.toNat) 0 : ℤ) : ℚ)) :=
        mul_le_mul_of_nonneg_right hfr1 (by linarith)
      linarith
    have step2 : ((s.getD (⌊r1⌋.toNat + 1) 0 : ℤ) : ℚ) ≤ ((s.getD (⌊r2⌋.toNat) 0 : ℤ) : ℚ) := by
      exact_mod_cast sorted_getD_mono s hs _ _ (by omega) hb2
    have step3 : ((s.getD (⌊r2⌋.toNat) 0 : ℤ) : ℚ) ≤ interpAt s r2 := by
      simp only [interpAt]
      rcases Nat.lt_or_ge (⌊r2⌋.toNat + 1) s.length with hlt2 | hge2
      · rw [getD_irrel_of_lt s (⌊r2⌋.toNat + 1) _ hlt2]
        have hsor : s.getD (⌊r2⌋.toNat) 0 ≤ s.getD (⌊r2⌋.toNat + 1) 0 :=
          sorted_getD_mono s hs _ _ (Nat.le_succ _) hlt2
        have hq : ((s.getD (⌊r2⌋.toNat) 0 : ℤ) : ℚ) ≤ ((s.getD (⌊r2⌋.toNat + 1) 0 : ℤ) : ℚ) := by
          exact_mod_cast hsor
        have hfr0 : 0 ≤ r2 - ((⌊r2⌋.toNat : ℕ) : ℚ) := by linarith
        have hmul : 0 ≤ (r2 - ((⌊r2⌋.toNat : ℕ) : ℚ)) *
            (((s.getD (⌊r2⌋.toNat + 1) 0 : ℤ) : ℚ) - ((s.getD (⌊r2⌋.toNat) 0 : ℤ) : ℚ)) :=
          mul_nonneg hfr0 (by linarith)
        linarith
      · rw [getD_default_of_le s (⌊r2⌋.toNat + 1) _ hge2]
        have hz : (r2 - ((⌊r2⌋.toNat : ℕ) : ℚ)) *
            (((s.getD (⌊r2⌋.toNat) 0 : ℤ) : ℚ) - ((s.getD (⌊r2⌋.toNat) 0 : ℤ) : ℚ)) = 0 := by
          ring
        linarith
    exact le_trans (le_trans step1 step2) step3
  · have heqi : ⌊r1⌋.toNat = ⌊r2⌋.toNat := le_antisymm hmono hge
    have hcast : ((⌊r1⌋.toNat : ℕ) : ℚ) = ((⌊r2⌋.toNat : ℕ) : ℚ) := by exact_mod_cast heqi
    rcases Nat.lt_or_ge (⌊r1⌋.toNat + 1) s.length with hlt2 | hge2
    · simp only [interpAt]
      rw [← heqi]
      rw [getD_irrel_of_lt s (⌊r1⌋.toNat + 1) _ hlt2]
      have hsor : s.getD (⌊r1⌋.toNat) 0 ≤ s.getD (⌊r1⌋.toNat + 1) 0 :=
        sorted_getD_mono s hs _ _ (Nat.le_succ _) hlt2
      have hq : ((s.getD (⌊r1⌋.toNat) 0 : ℤ) : ℚ) ≤ ((s.getD (⌊r1⌋.toNat + 1) 0 : ℤ) : ℚ) := by
        exact_mod_cast hsor
      have hd : r1 - ((⌊r1⌋.toNat : ℕ) : ℚ) ≤ r2 - ((⌊r1⌋.toNat : ℕ) : ℚ) := by linarith
      have hmul : (r1 - ((⌊r1⌋.toNat : ℕ) : ℚ)) *
          (((s.getD (⌊r1⌋.toNat + 1) 0 : ℤ) : ℚ) - ((s.getD (⌊r1⌋.toNat) 0 : ℤ) : ℚ)) ≤
          (r2 - ((⌊r1⌋.toNat : ℕ) : ℚ)) *
          (((s.getD (⌊r1⌋.toNat + 1) 0 : ℤ) : ℚ) - ((s.getD (⌊r1⌋.toNat) 0 : ℤ) : ℚ)) :=
        mul_le_mul_of_nonneg_right hd (by linarith)
      linarith
    · have h1' : (s.length : ℚ) - 1 ≤ ((⌊r1⌋.toNat : ℕ) : ℚ) := by
        have ha : s.length ≤ ⌊r1⌋.toNat + 1 := hge2
        have hb : (s.length : ℚ) ≤ ((⌊r1⌋.toNat : ℕ) : ℚ) + 1 := by exact_mod_cast ha
        linarith
      have hr2i : r2 = ((⌊r2⌋.toNat : ℕ) : ℚ) :=
        le_antisymm (by rw [← hcast]; linarith) hlo2
      have hr1r2 : r1 = r2 := le_antisymm h12 (by rw [hr2i, ← hcast]; linarith)
      rw [hr1r2]

theorem percentileQ_mono (values : List Int) (hne : values ≠ [])
    (q1 q2 : ℚ) (h0 : 0 ≤ q1) (h12 : q1 ≤ q2) (h100 : q2 ≤ 100) :
    percentileQ values q1 ≤ percentileQ values q2 := by
  have hs := List.sorted_insertionSort (· ≤ ·) values
  have hlen : (values.insertionSort (· ≤ ·)).length = values.length :=
    List.length_insertionSort (· ≤ ·) values
  have hsne : values.insertionSort (· ≤ ·) ≠ [] := by
    intro h
    apply hne
    have hz := congrArg List.length h
    rw [hlen] at hz
    exact List.eq_nil_of_length_eq_zero hz
  have hn : 0 < values.length := List.length_pos.2 hne
  have hn1 : (1 : ℚ) ≤ ((values.insertionSort (· ≤ ·)).length : ℚ) := by
    rw [hlen]
    exact_mod_cast hn
  simp only [percentileQ]
  refine interp_mono _ hs hsne _ _ ?_ ?_ ?_
  · exact mul_nonneg (div_nonneg h0 (by norm_num)) (by linarith)
  · exact mul_le_mul_of_nonneg_right (by linarith) (by linarith)
  · have hq : q2 / 100 ≤ 1 := by linarith
    nlinarith

/-- C8: every per-position quality summary emitted by the engine has ordered
percentiles: `q10 ≤ q25 ≤ median ≤ q75 ≤ q90`, under the
linear-interpolation percentile semantics of `percentileQ` (the default
`np.percentile` method; the median is the 50th percentile). -/
theorem c8_percentile_monotonicity (qualities : List Line) (row : QualityRow)
    (hrow : row ∈ quality_stats qualities) :
    row.q10 ≤ row.q25 ∧ row.q25 ≤ row.median ∧ row.median ≤ row.q75 ∧
      row.q75 ≤ row.q90 := by
  rw [quality_stats] at hrow
  obtain ⟨pos, hpos, heq⟩ := List.mem_filterMap.1 hrow
  by_cases hemp : (posQualities qualities pos).isEmpty
  · rw [if_pos hemp] at heq
    exact absurd heq (by simp)
  · rw [if_neg hemp] at heq
    have hne : posQualities qualities pos ≠ [] := by
      intro hnil
      rw [hnil] at hemp
      exact hemp rfl
    have hrow' : row =
        { position := pos + 1,
          median := percentileQ (posQualities qualities pos) 50,
          q25 := percentileQ (posQualities qualities pos) 25,
          q75 := percentileQ (posQualities qualities pos) 75,
          q10 := percentileQ (posQualities qualities pos) 10,
          q90 := percentileQ (posQualities qualities pos) 90 } :=
      (Option.some.injEq _ _ ▸ heq).symm
    subst hrow'
    refine ⟨?_, ?_, ?_, ?_⟩ <;>
      exact percentileQ_mono _ hne _ _ (by norm_num) (by norm_num) (by norm_num)

theorem c8_percentile_monotonicity_witness :
    (({ position := 1, median := 40, q25 := 40, q75 := 40, q10 := 40, q90 := 40 } : QualityRow) ∈ quality_stats [['I']]) ∧
    (({ position := 1, median := 40, q25 := 40, q75 := 40, q10 := 40, q90 := 40 } : QualityRow).q10 ≤ ({ position := 1, median := 40, q25 := 40, q75 := 40, q10 := 40, q90 := 40 } : QualityRow).q25 ∧
      ({ position := 1, median := 40, q25 := 40, q75 := 40, q10 := 40, q90 := 40 } : QualityRow).q25 ≤ ({ position := 1, median := 40, q25 := 40, q75 := 40, q10 := 40, q90 := 40 } : QualityRow).median ∧
      ({ position := 1, median := 40, q25 := 40, q75 := 40, q10 := 40, q90 := 40 } : QualityRow).median ≤ ({ position := 1, median := 40, q25 := 40, q75 := 40, q10 := 40, q90 := 40 } : QualityRow).q75 ∧
      ({ position := 1, median := 40, q25 := 40, q75 := 40, q10 := 40, q90 := 40 } : QualityRow).q75 ≤ ({ position := 1, median := 40, q25 := 40, q75 := 40, q10 := 40, q90 := 40 } : QualityRow).q90) :=
  have h1 : ({ position := 1, median := 40, q25 := 40, q75 := 40, q10 := 40, q90 := 40 } : QualityRow) ∈ quality_stats [['I']] :=
    of_decide_eq_true (by with_unfolding_all rfl)
  ⟨h1, c8_percentile_monotonicity [['I']] _ h1⟩
